import Mathlib

/-!
Verification of shri314::timer::Timer

A shallow embedding of `src/include/shri314/timer/Timer.hpp` (and the
`ScopedAction` utility it uses) over a discrete monotonic clock.

Modelling conventions:
* `Clock::now()` readings and durations are naturals (`TimePoint`, `Duration`).
* The `std::multimap<TimePoint, Entry>` task store is a list of entries each
  carrying its key (`due`), kept sorted ascending by `due`; `emplace` inserts
  at the upper bound of the equal range, exactly as `multimap::emplace` does.
* An `EntryLocator` is identified by a numeric id `lid`.  The set of locators
  that are still alive (some `shared_ptr` to them exists) is a list of pairs
  `(lid, valid)` where `valid` models `EntryLocator::m_is_valid`.  A locator
  absent from the list models a destroyed `EntryLocator`, so a `weak_ptr`
  lock on it fails.
* A `Token` holds `wloc : Option Nat`, modelling its `weak_ptr<EntryLocator>`:
  `none` is a default-constructed token, `some lid` locks successfully iff
  `lid` is still in the alive-locator list.
* Callbacks are modelled by their observable behaviour during one invocation:
  a `throws` flag.  `m_callback()` is `Entry.invoke : Except Unit Unit`, and
  the `try/catch(...)` of `safe_invoke` discards the error.
* The mutex-protected operations (`schedule`, `cancel_by`, the drain/re-arm
  step of `run`) are atomic state transformers; the condition-variable
  notifications they perform after releasing the lock are returned as flags.
* `condition_variable::wait_until` returning `cv_status::timeout` guarantees
  the steady clock has reached the deadline; theorems about the timeout
  branch of `run` take this as the hypothesis `nextUntil ≤ now`.
-/

namespace TimerModel

abbrev TimePoint := Nat
abbrev Duration := Nat

/-- One `Entry` of the task store together with its multimap key.
`eid` identifies the registration (the callback object), `due` is the
multimap key, `repeatInterval` is `m_repeat_interval`, `throws` is the
observable behaviour of `m_callback`, and `loc` is `m_locator`
(`none` models a null `shared_ptr`). -/
structure Entry where
  eid : Nat
  due : TimePoint
  repeatInterval : Duration
  throws : Bool
  loc : Option Nat
deriving DecidableEq, Repr

/-- `Entry::is_repeating`: the repeat interval is non-zero. -/
def Entry.is_repeating (e : Entry) : Bool :=
  e.repeatInterval != 0

/-- `m_callback()`: raises iff the callback throws. -/
def Entry.invoke (e : Entry) : Except Unit Unit :=
  if e.throws then Except.error () else Except.ok ()

/-- `Entry::safe_invoke`: run the callback inside `try { } catch(...) { }`,
swallowing any exception. -/
def Entry.safe_invoke (e : Entry) : Except Unit Unit :=
  match e.invoke with
  | Except.ok u => Except.ok u
  | Except.error _ => Except.ok ()

/-- Whole-timer state: the sorted task store, the alive locators with their
validity flags, the two atomic bools, and fresh-id counters standing for
object identity of entries and locators. -/
structure TimerState where
  tasks : List Entry
  locators : List (Nat × Bool)
  stopReq : Bool
  running : Bool
  nextEid : Nat
  nextLid : Nat
deriving DecidableEq, Repr

/-- Look up the validity flag of an alive locator; `none` means the locator has
been destroyed (weak lock fails). -/
def lookupLoc (locs : List (Nat × Bool)) (lid : Nat) : Option Bool :=
  match locs with
  | [] => none
  | p :: rest => if p.1 = lid then some p.2 else lookupLoc rest lid

/-- `multimap::emplace`: insert at the upper bound of the equal range of the
key, i.e. after every existing entry whose key is ≤ the new key. -/
def mmInsert (e : Entry) : List Entry → List Entry
  | [] => [e]
  | x :: xs => if e.due < x.due then e :: x :: xs else x :: mmInsert e xs

/-- Result of `Entry::link_locator`: the (possibly re-linked) entry, the
updated alive-locator list and fresh-locator counter. -/
structure LinkResult where
  entry : Entry
  locators : List (Nat × Bool)
  nextLid : Nat
deriving DecidableEq, Repr

/-- `Entry::link_locator(pos)`: if the entry has no locator yet, allocate a
fresh valid one; otherwise just `set_pos` (position tracking is implicit in
the model: a locator resolves to the entry holding it). -/
def link_locator (e : Entry) (locs : List (Nat × Bool)) (fresh : Nat) :
    LinkResult :=
  match e.loc with
  | none => ⟨{ e with loc := some fresh }, (fresh, true) :: locs, fresh + 1⟩
  | some _ => ⟨e, locs, fresh⟩

/-- `Entry::del_locator` (first half): `m_locator->invalidate()`.  The
locator object itself stays alive while the extracted node handle still
holds a strong reference to it, so it is kept in the list, marked invalid. -/
def invalidateLoc (olid : Option Nat) (locs : List (Nat × Bool)) :
    List (Nat × Bool) :=
  match olid with
  | none => locs
  | some lid => locs.map (fun p => if p.1 = lid then (p.1, false) else p)

/-- Drop a destroyed locator from the alive list (last strong reference
gone). -/
def removeLocator (lid : Nat) (locs : List (Nat × Bool)) :
    List (Nat × Bool) :=
  locs.filter (fun p => p.1 ≠ lid)

/-- Result of `Timer::emplace_link`: the updated timer state and the entry
as inserted (`pos->second` after `link_locator`). -/
structure EmplaceResult where
  st : TimerState
  entry : Entry
deriving DecidableEq, Repr

/-- `Timer::emplace_link(tasks, delay, ...)`, called under the store lock:
key the entry at `Clock::now() + delay`, emplace it, link its locator. -/
def emplace_link (st : TimerState) (now delay : Nat) (e : Entry) :
    EmplaceResult :=
  let keyed : Entry := { e with due := now + delay }
  let lr := link_locator keyed st.locators st.nextLid
  ⟨{ st with
      tasks := mmInsert lr.entry st.tasks
      locators := lr.locators
      nextLid := lr.nextLid },
    lr.entry⟩

/-- Caller-visible cancellation handle: wraps `weak_ptr<EntryLocator>`. -/
structure Token where
  wloc : Option Nat
deriving DecidableEq, Repr

/-- `Token::expired`: if the weak reference still locks, report the
negation of the validity flag; if it no longer locks, report true. -/
def Token.expired (tk : Token) (st : TimerState) : Bool :=
  match tk.wloc with
  | none => true
  | some lid =>
    match lookupLoc st.locators lid with
    | none => true
    | some valid => !valid

/-- Result of `Timer::cancel_by` / `Token::cancel`: post-state, the boolean
return value, and whether `m_tasks_cv` was notified after the lock was
released. -/
structure CancelResult where
  st : TimerState
  removed : Bool
  notified : Bool
deriving DecidableEq, Repr

/-- `multimap::erase(pos)` where `pos` is the recorded position of the locator:
remove the entry holding that locator. -/
def eraseEntryByLoc (lid : Nat) : List Entry → List Entry
  | [] => []
  | x :: xs => if x.loc = some lid then xs else x :: eraseEntryByLoc lid xs

/-- `Timer::cancel_by(loc)`, under the store lock: if the locator is still
valid, record whether its position is `m_tasks.begin()`, erase the entry,
invalidate the locator (whose last strong reference then dies with the
erased entry, so it leaves the alive list), and notify if it was the
earliest; otherwise return false. -/
def cancel_by (st : TimerState) (lid : Nat) : CancelResult :=
  if lookupLoc st.locators lid = some true then
    let notified : Bool :=
      match st.tasks with
      | [] => false
      | x :: _ => decide (x.loc = some lid)
    ⟨{ st with
        tasks := eraseEntryByLoc lid st.tasks
        locators := removeLocator lid st.locators },
      true, notified⟩
  else
    ⟨st, false, false⟩

/-- `Token::cancel`: lock the weak reference; on success delegate to
`cancel_by`, otherwise return false. -/
def Token.cancel (tk : Token) (st : TimerState) : CancelResult :=
  match tk.wloc with
  | none => ⟨st, false, false⟩
  | some lid =>
    match lookupLoc st.locators lid with
    | none => ⟨st, false, false⟩
    | some _ => cancel_by st lid

/-- `Token::~Token`: calls `cancel()` and discards the result. -/
def Token.drop (tk : Token) (st : TimerState) : TimerState :=
  (tk.cancel st).st

/-- Result of `Timer::schedule`: post-state, the returned token, the entry
as inserted, and whether `m_tasks_cv` was notified (`pos == begin()`). -/
structure ScheduleResult where
  st : TimerState
  token : Token
  entry : Entry
  notified : Bool
deriving DecidableEq, Repr

/-- `Timer::schedule(delay, func, repeat_interval)` at clock reading `now`:
emplace-link a fresh entry keyed `now + delay`, notify iff the insertion
position is `m_tasks.begin()`, and hand back a token wrapping a weak
reference to the locator of the entry. -/
def schedule (st : TimerState) (now delay repeatInterval : Nat)
    (throws : Bool) : ScheduleResult :=
  let e : Entry := ⟨st.nextEid, 0, repeatInterval, throws, none⟩
  let st1 : TimerState := { st with nextEid := st.nextEid + 1 }
  let er := emplace_link st1 now delay e
  let notified : Bool :=
    match er.st.tasks with
    | [] => false
    | x :: _ => decide (x.eid = er.entry.eid)
  ⟨er.st, ⟨er.entry.loc⟩, er.entry, notified⟩

/-- `Timer::task_count`: size of the store under the lock. -/
def task_count (st : TimerState) : Nat :=
  st.tasks.length

/-- `Timer::is_running`. -/
def is_running (st : TimerState) : Bool :=
  st.running

/-- The predicate `Timer::wait_stop` blocks on: `m_running == false`.
`wait_stop` returns true as soon as this predicate is observed. -/
def wait_stop_pred (st : TimerState) : Bool :=
  st.running == false

/-- `Timer::request_stop` (the `notify_one` after unlock is implicit). -/
def request_stop (st : TimerState) : TimerState :=
  { st with stopReq := true }

/-- `Timer::is_stop_requested`. -/
def is_stop_requested (st : TimerState) : Bool :=
  st.stopReq

/-- The assignment `m_stop_req = false` performed unconditionally at the
top of `Timer::run`. -/
def run_entry (st : TimerState) : TimerState :=
  { st with stopReq := false }

/-- The predicate of the first `m_tasks_cv.wait` in the inner loop of `run`:
`m_stop_req || !m_tasks.empty()`. -/
def waitGate (st : TimerState) : Bool :=
  st.stopReq || !st.tasks.isEmpty

/-- The `if (m_stop_req) return;` check in the inner loop of `run`. -/
def stopCheck (st : TimerState) : Bool :=
  st.stopReq

/-- The per-node step of the re-arm loop of `run`: a repeating entry is re-armed
via `emplace_link(m_tasks, entry.repeat_interval(), std::move(entry))` at
the current clock reading; a one-shot entry gets `del_locator()`
(invalidation; the node handle keeps the locator alive until the next
iteration). -/
def rearmNode (now : Nat) (acc : TimerState) (e : Entry) : TimerState :=
  if e.is_repeating then
    (emplace_link acc now e.repeatInterval e).st
  else
    { acc with locators := invalidateLoc e.loc acc.locators }

/-- The re-arm loop over the extracted nodes. -/
def rearmAll (now : Nat) (batch : List Entry) (st : TimerState) :
    TimerState :=
  batch.foldl (rearmNode now) st

/-- Result of the timeout branch of the inner loop of `run`: the post-state and
the extracted batch (the nodes whose callbacks the outer iteration then
invokes). -/
structure DrainResult where
  st : TimerState
  batch : List Entry
deriving DecidableEq, Repr

/-- The timeout branch of the inner loop of `run` at clock reading `now`, under
the store lock: `next_until` is the earliest key; the intended semantics of
the extraction loop over `equal_range(next_until)` removes every entry
whose key equals `next_until`; then each extracted node is re-armed or has
its locator deleted. -/
def drainStep (st : TimerState) (now : Nat) : DrainResult :=
  match st.tasks with
  | [] => ⟨st, []⟩
  | first :: _ =>
    let nextUntil := first.due
    let batch := st.tasks.filter (fun e => e.due == nextUntil)
    let rest := st.tasks.filter (fun e => e.due != nextUntil)
    ⟨rearmAll now batch { st with tasks := rest }, batch⟩

/-- The firing loop of `run` over the extracted nodes, in the exception
monad: sequentially invoke the callback of each node through `inv`, collecting
the ids of the entries actually invoked; an uncaught exception aborts the
loop and escapes. -/
def invokeSeq (inv : Entry → Except Unit Unit) :
    List Entry → Except Unit (List Nat)
  | [] => Except.ok []
  | e :: es =>
    match inv e with
    | Except.error err => Except.error err
    | Except.ok _ =>
      match invokeSeq inv es with
      | Except.error err => Except.error err
      | Except.ok ids => Except.ok (e.eid :: ids)

/-- `utils::ScopedAction` wrapping a body in the exception monad: the init
function runs first, the body may end normally or by unwinding, and the
exit function runs on every exit path (the destructor), after which the
outcome of the body propagates. -/
def scopedAction {σ ε α : Type} (initAct exitAct : σ → σ)
    (body : σ → σ × Except ε α) (s : σ) : σ × Except ε α :=
  let br := body (initAct s)
  (exitAct br.1, br.2)

/-- The run-state flip: under `m_run_mutex`, set `m_running`, then notify
`m_run_cv` (notification implicit in the model). -/
def set_running (b : Bool) (st : TimerState) : TimerState :=
  { st with running := b }

/-- One outer iteration of `Timer::run`: the `ScopedAction` flipper marks
`running = true` on entry and restores `running = false` on every exit
path of the iteration body, normal or unwinding. -/
def outerIteration (body : TimerState → TimerState × Except Unit Bool)
    (st : TimerState) : TimerState × Except Unit Bool :=
  scopedAction (set_running true) (set_running false) body st

/-- Boolean check that the store is sorted ascending by key, the invariant
`std::multimap` maintains. -/
def dueSorted : List Entry → Bool
  | [] => true
  | [_] => true
  | a :: b :: rest => Nat.ble a.due b.due && dueSorted (b :: rest)

/-- Sample entry: repeating, due at 5, interval 3, locator 0. -/
def sampleRepEntry : Entry :=
  ⟨0, 5, 3, false, some 0⟩

/-- Sample store holding only `sampleRepEntry`. -/
def sampleRep : TimerState :=
  ⟨[sampleRepEntry], [(0, true)], false, false, 1, 1⟩

/-- Sample store: two one-shot entries sharing due time 5, the second one
with a throwing callback. -/
def samplePair : TimerState :=
  ⟨[⟨0, 5, 0, false, some 0⟩, ⟨1, 5, 0, true, some 1⟩],
    [(1, true), (0, true)], false, false, 2, 2⟩

/-- Sample store: one-shot entries due at 5 and at 9. -/
def sampleTwo : TimerState :=
  ⟨[⟨0, 5, 0, false, some 0⟩, ⟨1, 9, 0, false, some 1⟩],
    [(1, true), (0, true)], false, false, 2, 2⟩

/-! ## Helper lemmas -/

/-- `safe_invoke` never lets an exception escape. -/
lemma safe_invoke_ok (e : Entry) : e.safe_invoke = Except.ok () := by
  unfold Entry.safe_invoke Entry.invoke
  by_cases h : e.throws = true
  · simp [h]
  · simp [h]

/-- In a sorted store, the head key is minimal. -/
lemma dueSorted_head_min :
    ∀ (l : List Entry) (a : Entry), dueSorted (a :: l) = true →
      ∀ x ∈ l, a.due ≤ x.due := by
  intro l
  induction l with
  | nil => intro a _ x hx; cases hx
  | cons b rest ih =>
    intro a hs x hx
    have hs2 : Nat.ble a.due b.due = true ∧ dueSorted (b :: rest) = true := by
      simpa [dueSorted, Bool.and_eq_true] using hs
    have hab : a.due ≤ b.due := Nat.le_of_ble_eq_true hs2.1
    rcases List.mem_cons.mp hx with hx | hx
    · rw [hx]; exact hab
    · exact Nat.le_trans hab (ih b hs2.2 x hx)

/-- The new element belongs to the insertion result. -/
lemma mem_mmInsert_self (e : Entry) : ∀ l : List Entry, e ∈ mmInsert e l := by
  intro l
  induction l with
  | nil => simp [mmInsert]
  | cons x xs ih =>
    by_cases h : e.due < x.due
    · simp [mmInsert, h]
    · simp [mmInsert, h]
      right
      exact ih

/-- Insertion preserves the existing elements. -/
lemma mem_mmInsert_of_mem (e y : Entry) :
    ∀ l : List Entry, y ∈ l → y ∈ mmInsert e l := by
  intro l
  induction l with
  | nil => intro h; cases h
  | cons x xs ih =>
    intro hy
    by_cases h : e.due < x.due
    · simp [mmInsert, h]
      rcases List.mem_cons.mp hy with hy | hy
      · right; left; exact hy
      · right; right; exact hy
    · simp [mmInsert, h]
      rcases List.mem_cons.mp hy with hy | hy
      · left; exact hy
      · right; exact ih hy

/-- `link_locator` only touches the `loc` field, and keeps an already
linked locator. -/
lemma link_locator_entry (e : Entry) (locs : List (Nat × Bool)) (fresh : Nat) :
    (link_locator e locs fresh).entry.eid = e.eid ∧
    (link_locator e locs fresh).entry.due = e.due ∧
    (link_locator e locs fresh).entry.repeatInterval = e.repeatInterval ∧
    ∀ lid : Nat, e.loc = some lid → (link_locator e locs fresh).entry.loc = some lid := by
  cases h : e.loc with
  | none => simp [link_locator, h]
  | some l => simp [link_locator, h]

/-- A destroyed locator no longer resolves. -/
lemma lookupLoc_removeLocator (lid : Nat) :
    ∀ locs : List (Nat × Bool), lookupLoc (removeLocator lid locs) lid = none := by
  intro locs
  induction locs with
  | nil => rfl
  | cons p rest ih =>
    by_cases h : p.1 = lid
    · simpa [removeLocator, List.filter, h] using ih
    · simpa [removeLocator, List.filter, h, lookupLoc] using ih

/-- Prepending a fresh valid locator preserves a valid lookup. -/
lemma lookupLoc_cons_true (fresh lid : Nat) (locs : List (Nat × Bool))
    (h : lookupLoc locs lid = some true) :
    lookupLoc ((fresh, true) :: locs) lid = some true := by
  by_cases hf : fresh = lid
  · simp [lookupLoc, hf]
  · simpa [lookupLoc, hf] using h

/-- Invalidating a different locator does not change a lookup. -/
lemma lookupLoc_invalidate_other (lid lid2 : Nat) (hne : lid2 ≠ lid) :
    ∀ locs : List (Nat × Bool),
      lookupLoc (invalidateLoc (some lid2) locs) lid = lookupLoc locs lid := by
  intro locs
  induction locs with
  | nil => rfl
  | cons p rest ih =>
    simp only [invalidateLoc] at ih
    by_cases h2 : p.1 = lid2
    · have hne2 : ¬ p.1 = lid := by rw [h2]; exact hne
      simp only [invalidateLoc, List.map_cons, if_pos h2, lookupLoc, if_neg hne2]
      exact ih
    · simp only [invalidateLoc, List.map_cons, if_neg h2, lookupLoc]
      by_cases h1 : p.1 = lid
      · rw [if_pos h1, if_pos h1]
      · rw [if_neg h1, if_neg h1]; exact ih

/-- Erasing the entry at the position of a locator removes exactly one element
when one holds the locator. -/
lemma eraseEntryByLoc_length (lid : Nat) :
    ∀ l : List Entry, (∃ x ∈ l, x.loc = some lid) →
      (eraseEntryByLoc lid l).length + 1 = l.length := by
  intro l
  induction l with
  | nil => rintro ⟨x, hx, _⟩; cases hx
  | cons x xs ih =>
    rintro ⟨y, hy, hyl⟩
    by_cases h : x.loc = some lid
    · simp [eraseEntryByLoc, h]
    · have hyxs : y ∈ xs := by
        rcases List.mem_cons.mp hy with hy | hy
        · exact absurd (hy ▸ hyl) h
        · exact hy
      have := ih ⟨y, hyxs, hyl⟩
      simp only [eraseEntryByLoc, if_neg h, List.length_cons]
      omega

/-- Erasing at the position of the locator decrements the count of its holders. -/
lemma eraseEntryByLoc_countP (lid : Nat) :
    ∀ l : List Entry, (∃ x ∈ l, x.loc = some lid) →
      (eraseEntryByLoc lid l).countP (fun x => decide (x.loc = some lid)) + 1
        = l.countP (fun x => decide (x.loc = some lid)) := by
  intro l
  induction l with
  | nil => rintro ⟨x, hx, _⟩; cases hx
  | cons x xs ih =>
    rintro ⟨y, hy, hyl⟩
    by_cases h : x.loc = some lid
    · simp [eraseEntryByLoc, h, List.countP_cons]
    · have hyxs : y ∈ xs := by
        rcases List.mem_cons.mp hy with hy | hy
        · exact absurd (hy ▸ hyl) h
        · exact hy
      have := ih ⟨y, hyxs, hyl⟩
      simp only [eraseEntryByLoc, if_neg h, List.countP_cons, h, decide_eq_true_eq,
        if_false]
      simp only [decide_eq_true_eq] at this ⊢
      omega

/-- The re-arm loop unfolds one node at a time. -/
lemma rearmAll_cons (now : Nat) (f : Entry) (fs : List Entry)
    (acc : TimerState) :
    rearmAll now (f :: fs) acc = rearmAll now fs (rearmNode now acc f) := rfl

/-- A single re-arm step never removes anything from the store. -/
lemma rearmNode_mem (now : Nat) (acc : TimerState) (f x : Entry)
    (hx : x ∈ acc.tasks) : x ∈ (rearmNode now acc f).tasks := by
  unfold rearmNode
  by_cases h : f.is_repeating = true
  · simp only [h, if_pos]
    exact mem_mmInsert_of_mem _ _ _ hx
  · simp only [h]
    simpa using hx

/-- The whole re-arm loop never removes anything from the store. -/
lemma rearmAll_mem (now : Nat) :
    ∀ (bs : List Entry) (acc : TimerState) (x : Entry),
      x ∈ acc.tasks → x ∈ (rearmAll now bs acc).tasks := by
  intro bs
  induction bs with
  | nil => intro acc x hx; exact hx
  | cons f fs ih =>
    intro acc x hx
    rw [rearmAll_cons]
    exact ih _ x (rearmNode_mem now acc f x hx)

/-- Every repeating extracted node is re-inserted with key
`now + repeat_interval`, the same identity, and the same locator. -/
lemma rearmAll_mem_repeating (now : Nat) :
    ∀ (bs : List Entry) (acc : TimerState) (e : Entry),
      e ∈ bs → e.is_repeating = true →
      ∃ x ∈ (rearmAll now bs acc).tasks,
        x.eid = e.eid ∧ x.due = now + e.repeatInterval ∧
        ∀ lid : Nat, e.loc = some lid → x.loc = some lid := by
  intro bs
  induction bs with
  | nil => intro acc e he; cases he
  | cons f fs ih =>
    intro acc e he hrep
    rcases List.mem_cons.mp he with he | he
    · subst he
      rw [rearmAll_cons]
      unfold rearmNode
      rw [if_pos hrep]
      set keyed : Entry := { e with due := now + e.repeatInterval } with hk
      have hfields := link_locator_entry keyed acc.locators acc.nextLid
      set x0 : Entry := (link_locator keyed acc.locators acc.nextLid).entry with hx0
      have hx0mem : x0 ∈ (emplace_link acc now e.repeatInterval e).st.tasks := by
        simp only [emplace_link]
        exact mem_mmInsert_self _ _
      refine ⟨x0, rearmAll_mem now fs _ x0 hx0mem, ?_, ?_, ?_⟩
      · rw [hfields.1]
      · rw [hfields.2.1]
      · intro lid hlid
        exact hfields.2.2.2 lid hlid
    · rw [rearmAll_cons]
      exact ih _ e he hrep

/-- A repeating or unrelated node keeps a valid locator resolvable. -/
lemma rearmNode_lookup (now : Nat) (acc : TimerState) (f : Entry) (lid : Nat)
    (h : lookupLoc acc.locators lid = some true)
    (hf : f.is_repeating = false → f.loc ≠ some lid) :
    lookupLoc (rearmNode now acc f).locators lid = some true := by
  unfold rearmNode
  by_cases hrep : f.is_repeating = true
  · simp only [hrep, if_pos]
    simp only [emplace_link]
    cases hl : f.loc with
    | none =>
      simp only [link_locator, hl]
      exact lookupLoc_cons_true _ _ _ h
    | some l =>
      simp only [link_locator, hl]
      exact h
  · have hrep2 : f.is_repeating = false := by
      cases hb : f.is_repeating
      · rfl
      · exact absurd hb hrep
    simp only [hrep2, Bool.false_eq_true, if_neg, ite_false]
    cases hl : f.loc with
    | none => simpa [invalidateLoc] using h
    | some l2 =>
      have hne : l2 ≠ lid := by
        intro hcontra
        exact (hf hrep2) (by rw [hl, hcontra])
      rw [lookupLoc_invalidate_other lid l2 hne acc.locators]
      exact h

/-- The re-arm loop keeps a valid locator resolvable when no one-shot node
in the batch holds it. -/
lemma rearmAll_lookup (now lid : Nat) :
    ∀ (bs : List Entry) (acc : TimerState),
      lookupLoc acc.locators lid = some true →
      (∀ f ∈ bs, f.is_repeating = false → f.loc ≠ some lid) →
      lookupLoc (rearmAll now bs acc).locators lid = some true := by
  intro bs
  induction bs with
  | nil => intro acc h _; exact h
  | cons f fs ih =>
    intro acc h hall
    rw [rearmAll_cons]
    refine ih _ ?_ ?_
    · exact rearmNode_lookup now acc f lid h
        (hall f (List.mem_cons_self f fs))
    · intro g hg
      exact hall g (List.mem_cons_of_mem f hg)

/-- One element with the counted property exists when the count is one. -/
lemma exists_of_countP_eq_one {p : Entry → Bool} :
    ∀ l : List Entry, l.countP p = 1 → ∃ x ∈ l, p x = true := by
  intro l
  induction l with
  | nil => intro h; simp [List.countP_nil] at h
  | cons x xs ih =>
    intro h
    by_cases hx : p x = true
    · exact ⟨x, List.mem_cons_self x xs, hx⟩
    · rw [List.countP_cons, if_neg (by simpa using hx)] at h
      rcases ih (by simpa using h) with ⟨y, hy, hyp⟩
      exact ⟨y, List.mem_cons_of_mem x hy, hyp⟩

/-- `cancel_by` on a still-valid locator: the entry at its position is
erased, the locator leaves the alive list, and true is returned. -/
lemma cancel_by_valid (st : TimerState) (lid : Nat)
    (hv : lookupLoc st.locators lid = some true) :
    (cancel_by st lid).st
        = { st with
            tasks := eraseEntryByLoc lid st.tasks
            locators := removeLocator lid st.locators } ∧
    (cancel_by st lid).removed = true := by
  unfold cancel_by
  rw [if_pos hv]
  exact ⟨rfl, rfl⟩

/-- `cancel_by` on an invalidated locator is a no-op returning false. -/
lemma cancel_by_invalid (st : TimerState) (lid : Nat)
    (hv : ¬ lookupLoc st.locators lid = some true) :
    cancel_by st lid = ⟨st, false, false⟩ := by
  unfold cancel_by
  rw [if_neg hv]

/-- `Token::cancel` when the weak reference no longer locks. -/
lemma cancel_noop_of_lookup_none (st : TimerState) (lid : Nat)
    (h : lookupLoc st.locators lid = none) :
    Token.cancel ⟨some lid⟩ st = ⟨st, false, false⟩ := by
  unfold Token.cancel
  simp [h]

/-- `Token::cancel` when the locator is alive but invalidated. -/
lemma cancel_noop_of_lookup_false (st : TimerState) (lid : Nat)
    (h : lookupLoc st.locators lid = some false) :
    Token.cancel ⟨some lid⟩ st = ⟨st, false, false⟩ := by
  unfold Token.cancel
  simp [h, cancel_by_invalid st lid (by simp [h])]

/-- `Token::cancel` when the locator is alive and valid delegates to
`cancel_by`. -/
lemma cancel_delegates_of_lookup_true (st : TimerState) (lid : Nat)
    (h : lookupLoc st.locators lid = some true) :
    Token.cancel ⟨some lid⟩ st = cancel_by st lid := by
  unfold Token.cancel
  simp [h]

/-- A second cancel through the same token is a no-op returning false. -/
lemma cancel_twice_noop (st : TimerState) (tk : Token) :
    tk.cancel (tk.cancel st).st = ⟨(tk.cancel st).st, false, false⟩ := by
  cases tk with
  | mk w =>
    cases w with
    | none => simp [Token.cancel]
    | some lid =>
      cases hl : lookupLoc st.locators lid with
      | none =>
        have h1 : Token.cancel ⟨some lid⟩ st = ⟨st, false, false⟩ :=
          cancel_noop_of_lookup_none st lid hl
        rw [h1]
        exact cancel_noop_of_lookup_none st lid hl
      | some b =>
        cases b with
        | false =>
          have h1 : Token.cancel ⟨some lid⟩ st = ⟨st, false, false⟩ :=
            cancel_noop_of_lookup_false st lid hl
          rw [h1]
          exact cancel_noop_of_lookup_false st lid hl
        | true =>
          have h1 : Token.cancel ⟨some lid⟩ st = cancel_by st lid :=
            cancel_delegates_of_lookup_true st lid hl
          have h2 : lookupLoc (cancel_by st lid).st.locators lid = none := by
            rw [(cancel_by_valid st lid hl).1]
            exact lookupLoc_removeLocator lid st.locators
          rw [h1]
          exact cancel_noop_of_lookup_none _ lid h2

/-- The batch the timeout branch extracts: all entries keyed at the
earliest due time. -/
lemma drainStep_batch_eq (st : TimerState) (now : Nat) (f : Entry)
    (rest : List Entry) (hst : st.tasks = f :: rest) :
    (drainStep st now).batch = st.tasks.filter (fun e => e.due == f.due) := by
  unfold drainStep
  rw [hst]

/-- The store after the timeout branch: the non-batch entries plus the
re-armed repeating nodes. -/
lemma drainStep_st_eq (st : TimerState) (now : Nat) (f : Entry)
    (rest : List Entry) (hst : st.tasks = f :: rest) :
    (drainStep st now).st =
      rearmAll now (st.tasks.filter (fun e => e.due == f.due))
        { st with tasks := st.tasks.filter (fun e => e.due != f.due) } := by
  unfold drainStep
  rw [hst]

/-! ## Claim theorems -/

/-- C5: cancel is an idempotent safe no-op on misuse: a second `cancel()`
on the same token returns false and leaves the whole timer state (hence
the task store) unchanged; `cancel()` on a default-constructed token
returns false and changes nothing; destroying a token after an explicit
cancel does nothing. -/
theorem cancel_idempotent_safe_noop (st : TimerState) (tk : Token) :
    (tk.cancel (tk.cancel st).st).removed = false ∧
    (tk.cancel (tk.cancel st).st).st = (tk.cancel st).st ∧
    Token.cancel ⟨none⟩ st = ⟨st, false, false⟩ ∧
    Token.drop tk (tk.cancel st).st = (tk.cancel st).st := by
  have h := cancel_twice_noop st tk
  refine ⟨?_, ?_, ?_, ?_⟩
  · rw [h]
  · rw [h]
  · simp [Token.cancel]
  · simp [Token.drop, h]

/-- C6: any exception a callback raises during firing is caught and
discarded at the invocation boundary (`safe_invoke`), so the firing loop
never propagates an exception and invokes every callback of the batch, in
order, whatever the individual callbacks do. -/
theorem callback_exceptions_swallowed :
    (∀ e : Entry, e.safe_invoke = Except.ok ()) ∧
    ∀ batch : List Entry,
      invokeSeq Entry.safe_invoke batch = Except.ok (batch.map Entry.eid) := by
  constructor
  · exact safe_invoke_ok
  · intro batch
    induction batch with
    | nil => rfl
    | cons e es ih => simp [invokeSeq, safe_invoke_ok e, ih]

/-- C8: the `ScopedAction` flipper sets the running flag at the start of
an outer `run` iteration, the body observes it set, and the flag is
restored to false on every exit path of the iteration (normal or
unwinding), with the outcome of the body propagated unchanged; hence after
`run` returns `is_running` is false and the predicate of `wait_stop` holds. -/
theorem running_flag_restored_on_every_exit
    (body : TimerState → TimerState × Except Unit Bool) (st : TimerState) :
    is_running (set_running true st) = true ∧
    is_running (outerIteration body st).1 = false ∧
    wait_stop_pred (outerIteration body st).1 = true ∧
    (outerIteration body st).2 = (body (set_running true st)).2 := by
  refine ⟨rfl, ?_, ?_, rfl⟩ <;>
    simp [outerIteration, scopedAction, is_running, set_running, wait_stop_pred]

/-- C10: `run` unconditionally clears the stop-request flag on entry, so a
`request_stop` issued before `run` starts is erased: `is_stop_requested`
reads false after the reset, the stop check of the loop does not fire, and only
a new `request_stop` sets the flag again. -/
theorem run_resets_pending_stop_request (st : TimerState) :
    is_stop_requested (run_entry (request_stop st)) = false ∧
    stopCheck (run_entry (request_stop st)) = false ∧
    is_stop_requested (run_entry st) = false ∧
    is_stop_requested (request_stop (run_entry st)) = true :=
  ⟨rfl, rfl, rfl, rfl⟩

/-- C1: the scheduling loop fires an entry only once the monotonic clock
has reached the absolute due time of the entry: when the deadline wait times
out at clock reading `now` (so the earliest key `first.due` satisfies
`first.due ≤ now`), every entry of the extracted batch has `due ≤ now`;
and every insertion (`schedule` as well as re-arm, both via
`emplace_link`) keys its entry at the clock reading plus the delay, so a
due time is always schedule time + delay, resp. re-arm time + interval. -/
theorem fired_only_at_or_after_due (st : TimerState) (now delay : Nat)
    (first e : Entry)
    (hh : st.tasks.head? = some first)
    (ht : first.due ≤ now)
    (he : e ∈ (drainStep st now).batch) :
    e.due ≤ now ∧ (emplace_link st now delay e).entry.due = now + delay := by
  constructor
  · cases hst : st.tasks with
    | nil => rw [hst] at hh; cases hh
    | cons f rest =>
      rw [hst] at hh
      have hf : f = first := by injection hh
      rw [drainStep_batch_eq st now f rest hst] at he
      have hdue : (e.due == f.due) = true := (List.mem_filter.mp he).2
      have : e.due = first.due := by rw [← hf]; exact eq_of_beq hdue
      rw [this]
      exact ht
  · have hfields :=
      link_locator_entry { e with due := now + delay } st.locators st.nextLid
    simpa [emplace_link] using hfields.2.1

/-- C1 witness: the repeating sample entry due at 5 is drained at clock 7,
not before its due time; an emplace at clock 7 with delay 4 is keyed 11. -/
theorem fired_only_at_or_after_due_witness :
    (sampleRep.tasks.head? = some sampleRepEntry ∧ sampleRepEntry.due ≤ 7 ∧
      sampleRepEntry ∈ (drainStep sampleRep 7).batch) ∧
    (sampleRepEntry.due ≤ 7 ∧
      (emplace_link sampleRep 7 4 sampleRepEntry).entry.due = 7 + 4) :=
  ⟨⟨by decide, by decide, by decide⟩,
    fired_only_at_or_after_due sampleRep 7 4 sampleRepEntry sampleRepEntry
      (by decide) (by decide) (by decide)⟩

/-- C2: a cancel that completes while the entry is still pending (its
locator alive and valid, exactly one store entry holding it) returns true,
removes the entry from the store so its callback can never fire
(no store entry holds the locator any more), drops `task_count` by one,
and makes `expired()` report true afterwards. -/
theorem cancel_before_due_prevents_firing (st : TimerState) (lid : Nat)
    (hv : lookupLoc st.locators lid = some true)
    (hone : st.tasks.countP (fun x => decide (x.loc = some lid)) = 1) :
    (Token.cancel ⟨some lid⟩ st).removed = true ∧
    task_count (Token.cancel ⟨some lid⟩ st).st + 1 = task_count st ∧
    (Token.cancel ⟨some lid⟩ st).st.tasks.countP
      (fun x => decide (x.loc = some lid)) = 0 ∧
    Token.expired ⟨some lid⟩ (Token.cancel ⟨some lid⟩ st).st = true := by
  have hex : ∃ x ∈ st.tasks, x.loc = some lid := by
    rcases exists_of_countP_eq_one st.tasks hone with ⟨x, hx, hxp⟩
    exact ⟨x, hx, of_decide_eq_true hxp⟩
  have hdel := cancel_delegates_of_lookup_true st lid hv
  have hval := cancel_by_valid st lid hv
  refine ⟨?_, ?_, ?_, ?_⟩
  · rw [hdel]; exact hval.2
  · rw [hdel, hval.1]
    exact eraseEntryByLoc_length lid st.tasks hex
  · rw [hdel]
    have h0 : (cancel_by st lid).st.tasks = eraseEntryByLoc lid st.tasks := by
      rw [hval.1]
    rw [h0]
    have := eraseEntryByLoc_countP lid st.tasks hex
    omega
  · rw [hdel, hval.1]
    simp [Token.expired, lookupLoc_removeLocator]

/-- C2 witness: cancelling the entry due at 5 in the two-entry sample
store removes it, drops the count from 2 to 1, and expires the token. -/
theorem cancel_before_due_prevents_firing_witness :
    (lookupLoc sampleTwo.locators 0 = some true ∧
      sampleTwo.tasks.countP (fun x => decide (x.loc = some 0)) = 1) ∧
    ((Token.cancel ⟨some 0⟩ sampleTwo).removed = true ∧
      task_count (Token.cancel ⟨some 0⟩ sampleTwo).st + 1 = task_count sampleTwo ∧
      (Token.cancel ⟨some 0⟩ sampleTwo).st.tasks.countP
        (fun x => decide (x.loc = some 0)) = 0 ∧
      Token.expired ⟨some 0⟩ (Token.cancel ⟨some 0⟩ sampleTwo).st = true) :=
  ⟨⟨by decide, by decide⟩,
    cancel_before_due_prevents_firing sampleTwo 0 (by decide) (by decide)⟩

/-- C3: in the intended drain semantics of the timeout branch (model of
the `equal_range`/`extract` loop), both entries of a two-entry batch at
the shared earliest due time 5 are extracted in the same iteration,
leaving the store empty, and the firing loop then invokes both callbacks
(the second one throwing) before the loop re-examines the store. -/
theorem drain_extracts_whole_batch_model :
    (drainStep samplePair 5).batch.map Entry.eid = [0, 1] ∧
    (drainStep samplePair 5).st.tasks = [] ∧
    invokeSeq Entry.safe_invoke (drainStep samplePair 5).batch
      = Except.ok [0, 1] :=
  ⟨by decide, by decide, rfl⟩

/-- C4 counterexample: the claim that the next
due time equals the previous due time plus the interval fails on the code:
draining the sample entry (due 5, interval 3) at clock reading 7 re-keys
it at 7 + 3 = 10, not at 5 + 3 = 8. -/
theorem rearm_due_not_previous_due_plus_interval :
    sampleRepEntry.due = 5 ∧ sampleRepEntry.repeatInterval = 3 ∧
    sampleRepEntry.due ≤ 7 ∧
    (drainStep sampleRep 7).st.tasks.map Entry.due = [7 + 3] ∧
    ¬ (drainStep sampleRep 7).st.tasks.map Entry.due = [5 + 3] :=
  ⟨rfl, rfl, by decide, by decide, by decide⟩

/-- C4 (amended): when a repeating entry is re-armed after extraction, its
next due time is the clock reading at re-arm time (during the drain,
before any callback of the batch runs) plus the repeat interval — the
re-inserted copy with the same identity carries key `now + interval`. -/
theorem rearm_due_is_rearm_clock_plus_interval (st : TimerState) (now : Nat)
    (e : Entry)
    (he : e ∈ (drainStep st now).batch)
    (hrep : e.is_repeating = true) :
    (drainStep st now).st.tasks.any
      (fun x => x.eid == e.eid && x.due == now + e.repeatInterval) = true := by
  cases hst : st.tasks with
  | nil =>
    rw [show (drainStep st now).batch = [] by unfold drainStep; rw [hst]] at he
    cases he
  | cons f rest =>
    rw [drainStep_batch_eq st now f rest hst] at he
    rw [drainStep_st_eq st now f rest hst]
    obtain ⟨x, hx, heid, hdue, -⟩ :=
      rearmAll_mem_repeating now _ _ e he hrep
    rw [List.any_eq_true]
    exact ⟨x, hx, by simp [heid, hdue]⟩

/-- C4 (amended) witness: draining the repeating sample entry at clock 7
re-inserts it with due time 7 + 3. -/
theorem rearm_due_is_rearm_clock_plus_interval_witness :
    (sampleRepEntry ∈ (drainStep sampleRep 7).batch ∧
      sampleRepEntry.is_repeating = true) ∧
    (drainStep sampleRep 7).st.tasks.any
      (fun x => x.eid == sampleRepEntry.eid
        && x.due == 7 + sampleRepEntry.repeatInterval) = true :=
  ⟨⟨by decide, by decide⟩,
    rearm_due_is_rearm_clock_plus_interval sampleRep 7 sampleRepEntry
      (by decide) (by decide)⟩

/-- C7: across a firing of a repeating entry, the re-arm step keeps the
same locator alive and valid and re-links it to the re-inserted store
entry (same identity), so a token for the registration still resolves it
and `expired()` stays false after the firing. -/
theorem repeating_token_not_expired_across_firings (st : TimerState)
    (now : Nat) (e : Entry) (lid : Nat)
    (he : e ∈ (drainStep st now).batch)
    (hrep : e.is_repeating = true)
    (hloc : e.loc = some lid)
    (hv : lookupLoc st.locators lid = some true)
    (hothers : ∀ f ∈ (drainStep st now).batch,
      f.is_repeating = false → f.loc ≠ some lid) :
    lookupLoc (drainStep st now).st.locators lid = some true ∧
    (drainStep st now).st.tasks.any
      (fun x => x.eid == e.eid && x.loc == some lid) = true ∧
    Token.expired ⟨some lid⟩ (drainStep st now).st = false := by
  cases hst : st.tasks with
  | nil =>
    rw [show (drainStep st now).batch = [] by unfold drainStep; rw [hst]] at he
    cases he
  | cons f rest =>
    rw [drainStep_batch_eq st now f rest hst] at he hothers
    rw [drainStep_st_eq st now f rest hst]
    have hlk := rearmAll_lookup now lid
      (st.tasks.filter (fun e => e.due == f.due))
      { st with tasks := st.tasks.filter (fun e => e.due != f.due) }
      hv hothers
    refine ⟨hlk, ?_, ?_⟩
    · obtain ⟨x, hx, heid, -, hxl⟩ :=
        rearmAll_mem_repeating now _ _ e he hrep
      rw [List.any_eq_true]
      exact ⟨x, hx, by simp [heid, hxl lid hloc]⟩
    · simp [Token.expired, hlk]

/-- C7 witness: firing the repeating sample entry at clock 7 leaves its
locator valid, resolvable to the re-inserted entry, and the token not
expired. -/
theorem repeating_token_not_expired_across_firings_witness :
    (sampleRepEntry ∈ (drainStep sampleRep 7).batch ∧
      sampleRepEntry.is_repeating = true ∧
      sampleRepEntry.loc = some 0 ∧
      lookupLoc sampleRep.locators 0 = some true ∧
      (∀ f ∈ (drainStep sampleRep 7).batch,
        f.is_repeating = false → f.loc ≠ some 0)) ∧
    (lookupLoc (drainStep sampleRep 7).st.locators 0 = some true ∧
      (drainStep sampleRep 7).st.tasks.any
        (fun x => x.eid == sampleRepEntry.eid && x.loc == some 0) = true ∧
      Token.expired ⟨some 0⟩ (drainStep sampleRep 7).st = false) :=
  ⟨⟨by decide, by decide, by decide, by decide, by decide⟩,
    repeating_token_not_expired_across_firings sampleRep 7 sampleRepEntry 0
      (by decide) (by decide) (by decide) (by decide) (by decide)⟩

/-- The head entry of `sampleTwo`. -/
def sampleTwoHead : Entry :=
  ⟨0, 5, 0, false, some 0⟩

/-- `schedule` inserts the freshly keyed, freshly linked entry. -/
lemma schedule_tasks_eq (st : TimerState) (t delay ri : Nat) (thr : Bool) :
    (schedule st t delay ri thr).st.tasks =
      mmInsert ⟨st.nextEid, t + delay, ri, thr, some st.nextLid⟩ st.tasks := rfl

/-- The `pos == begin()` check of `schedule`, in terms of the insertion. -/
lemma schedule_notified_eq_head (st : TimerState) (t delay ri : Nat)
    (thr : Bool) :
    (schedule st t delay ri thr).notified =
      match mmInsert ⟨st.nextEid, t + delay, ri, thr, some st.nextLid⟩ st.tasks with
      | [] => false
      | x :: _ => decide (x.eid = st.nextEid) := rfl

/-- `schedule` notifies exactly when the new entry lands strictly before
every pre-existing entry (the new earliest position). -/
lemma schedule_notified_eq (st : TimerState) (t delay ri : Nat) (thr : Bool)
    (hs : dueSorted st.tasks = true)
    (hf : ∀ x ∈ st.tasks, x.eid ≠ st.nextEid) :
    (schedule st t delay ri thr).notified
      = st.tasks.all (fun x => decide (t + delay < x.due)) := by
  rw [schedule_notified_eq_head]
  cases hst : st.tasks with
  | nil => simp [mmInsert]
  | cons h tl =>
    rw [hst] at hs hf
    by_cases hc : t + delay < h.due
    · have hl : mmInsert ⟨st.nextEid, t + delay, ri, thr, some st.nextLid⟩ (h :: tl)
          = ⟨st.nextEid, t + delay, ri, thr, some st.nextLid⟩ :: h :: tl := by
        simp [mmInsert, hc]
      rw [hl]
      have hall : (h :: tl).all (fun x => decide (t + delay < x.due)) = true := by
        rw [List.all_eq_true]
        intro x hx
        rcases List.mem_cons.mp hx with hx | hx
        · rw [hx]; exact decide_eq_true hc
        · exact decide_eq_true
            (Nat.lt_of_lt_of_le hc (dueSorted_head_min tl h hs x hx))
      rw [hall]
      simp
    · have hl : mmInsert ⟨st.nextEid, t + delay, ri, thr, some st.nextLid⟩ (h :: tl)
          = h :: mmInsert ⟨st.nextEid, t + delay, ri, thr, some st.nextLid⟩ tl := by
        simp [mmInsert, hc]
      rw [hl]
      have hne : h.eid ≠ st.nextEid := hf h (List.mem_cons_self h tl)
      have hfalse : (h :: tl).all (fun x => decide (t + delay < x.due)) = false := by
        simp [List.all_cons, hc]
      rw [hfalse]
      simp [hne]

/-- `cancel_by` of a valid locator notifies exactly when the erased entry
was at the earliest position of the store. -/
lemma cancel_notified_eq (st : TimerState) (lid : Nat) (e : Entry)
    (he : e ∈ st.tasks) (hel : e.loc = some lid)
    (hu : ∀ x ∈ st.tasks, x.loc = some lid → x = e)
    (hv : lookupLoc st.locators lid = some true) :
    (cancel_by st lid).notified = decide (st.tasks.head? = some e) := by
  have hred : (cancel_by st lid).notified =
      match st.tasks with
      | [] => false
      | x :: _ => decide (x.loc = some lid) := by
    unfold cancel_by
    rw [if_pos hv]
  rw [hred]
  cases hst : st.tasks with
  | nil => rw [hst] at he; cases he
  | cons x xs =>
    rw [hst] at hu
    simp only [List.head?_cons]
    by_cases hx : x.loc = some lid
    · have hxe : x = e := hu x (List.mem_cons_self x xs) hx
      simp [hx, hxe]
      exact hel
    · have hxe : ¬ (some x = some e) := by
        intro hcontra
        have hx2 : x = e := by injection hcontra
        have : x.loc = some lid := by rw [hx2]; exact hel
        exact hx this
      simp [hx, hxe]

/-- C9: `schedule` notifies the store condition variable exactly when the
newly inserted entry occupies the earliest position (its due time is
strictly below every pre-existing key — equal keys insert behind the
existing batch), and `cancel` notifies exactly when the removed entry was
at the earliest position at removal time; both checks are computed on the
state seen under the store lock, the notification being emitted after the
operation completes. -/
theorem notify_iff_earliest (st : TimerState) (t delay ri : Nat) (thr : Bool)
    (lid : Nat) (e : Entry)
    (hs : dueSorted st.tasks = true)
    (hf : ∀ x ∈ st.tasks, x.eid ≠ st.nextEid)
    (he : e ∈ st.tasks) (hel : e.loc = some lid)
    (hu : ∀ x ∈ st.tasks, x.loc = some lid → x = e)
    (hv : lookupLoc st.locators lid = some true) :
    (schedule st t delay ri thr).notified
      = st.tasks.all (fun x => decide (t + delay < x.due)) ∧
    (cancel_by st lid).notified = decide (st.tasks.head? = some e) :=
  ⟨schedule_notified_eq st t delay ri thr hs hf,
    cancel_notified_eq st lid e he hel hu hv⟩

/-- C9 witness: in the two-entry sample store (dues 5 and 9), scheduling
with delay 3 at clock 0 becomes the new earliest and notifies, and
cancelling the entry due at 5 removes the earliest and notifies. -/
theorem notify_iff_earliest_witness :
    (dueSorted sampleTwo.tasks = true ∧
      (∀ x ∈ sampleTwo.tasks, x.eid ≠ sampleTwo.nextEid) ∧
      sampleTwoHead ∈ sampleTwo.tasks ∧
      sampleTwoHead.loc = some 0 ∧
      (∀ x ∈ sampleTwo.tasks, x.loc = some 0 → x = sampleTwoHead) ∧
      lookupLoc sampleTwo.locators 0 = some true) ∧
    ((schedule sampleTwo 0 3 0 false).notified
        = sampleTwo.tasks.all (fun x => decide (0 + 3 < x.due)) ∧
      (cancel_by sampleTwo 0).notified
        = decide (sampleTwo.tasks.head? = some sampleTwoHead)) :=
  ⟨⟨by decide, by decide, by decide, by decide, by decide, by decide⟩,
    notify_iff_earliest sampleTwo 0 3 0 false 0 sampleTwoHead
      (by decide) (by decide) (by decide) (by decide) (by decide) (by decide)⟩

end TimerModel
